import Mathlib

/-!
Verification of the beam-search decoder of `src/model/transformer_model.py`
(class `TransformerModel`: method `beam_search` together with its helpers
`_length_penalty`, `_sample` and `_fix_past`).

Modelling conventions (shallow embedding over exact numbers):

* Scores are exact rationals.  The external sequence model together with
  `F.log_softmax` (lines 215-218 of the source) is abstracted as an oracle
  `List Nat -> Nat -> Rat` mapping a beam's full token history (the optional
  `beam_starts` prefix followed by the tokens accumulated in `prevs`) and a
  vocabulary id to a log-probability.  The incremental cache `past` is
  reindexed by `_fix_past` with exactly the same `beam_idxs` gather that
  reorders `prevs` (lines 266-272), so a cache-correct model is a function
  of the per-slot history; the oracle states that function directly.
* `_length_penalty` computes `(5 + l) ** alpha / 6 ** alpha` on
  integer-valued effective lengths.  The embedded configuration carries the
  penalty as a function `Nat -> Rat`; the real-exponent formula itself is
  verified separately (`lengthPenaltyReal` below), and the instantiations
  used on concrete runs are its exact rational values at `alpha = 0` and
  `alpha = 1`.
* One batch item is modelled.  Every tensor operation of the source acts
  independently per batch item (the diversity counter, the selections and
  the final extraction are all per-item), so the per-item embedding loses
  nothing the claims mention.
* Randomness is abstracted: the outcome of `random.random() < p` at step
  `i` is a Boolean stream `stoch`, and `torch.multinomial` is a draw
  oracle returning candidate indices (clamped into range, which is the
  contract `multinomial` guarantees).  All greedy-path claims instantiate
  `stoch` with the constant-false stream.
* Beam-indexed tensors are functions `Nat -> _`; only indices below
  `beamSize` are meaningful, and every theorem quantifies over those.
-/

set_option allowUnsafeReducibility true in
attribute [semireducible] Rat.mul Rat.inv Rat.add Rat.sub

set_option maxRecDepth 8000

namespace TransformerBeam

/-- Oracle for the external sequence model composed with `log_softmax`:
token history (prefix plus generated tokens) and vocabulary id to
log-probability. -/
def Oracle : Type := List Nat → Nat → ℚ

/-- Configuration fields of `TransformerModel` consumed by `beam_search`:
vocabulary size `n_embeddings`, positional capacity `n_pos_embeddings`,
`max_seq_len`, the special token ids, `beam_size`, `diversity_groups`,
`diversity_coef` and the length-penalty function. -/
structure Config where
  nEmbeddings : ℕ
  nPosEmbeddings : ℤ
  maxSeqLen : ℤ
  bosId : ℕ
  eosId : ℕ
  paddingIdx : ℕ
  beamSize : ℕ
  diversityGroups : ℕ
  diversityCoef : ℚ
  lengthPenalty : ℕ → ℚ

/-- Integer division `group_size = self.beam_size // self.diversity_groups`
(line 201 of the source). -/
def Config.groupSize (cfg : Config) : ℕ := cfg.beamSize / cfg.diversityGroups

/-- Per-beam decoding state: token histories `prevs`, running scores
`beam_scores`, lengths `beam_lens`, termination flags `is_end` and the
per-item diversity counter `diversity_penalty` (lines 190-202). -/
structure BeamState where
  prevs : ℕ → List ℕ
  scores : ℕ → ℚ
  lens : ℕ → ℕ
  isEnd : ℕ → Bool
  divPenalty : ℕ → ℕ

/-- Initial state: every beam holds the seed token, score `0`, length `1`,
not ended, and a zero diversity counter (lines 190-202). -/
def initState (cfg : Config) : BeamState :=
  ⟨fun _ => [cfg.bosId], fun _ => 0, fun _ => 1, fun _ => false, fun _ => 0⟩

/-- Empty state used only as a default for total extraction functions. -/
def emptyState : BeamState :=
  ⟨fun _ => [], fun _ => 0, fun _ => 0, fun _ => false, fun _ => 0⟩

/-! ### Greedy top-k selection (`torch.topk`, ties resolved to the
first-occurring index) -/

/-- First index attaining the maximum of `l.getD · 0` over the candidate
index list; earlier candidates win ties.  Junk value `0` on the empty
candidate list. -/
def argmaxOver (l : List ℚ) : List ℕ → ℕ
  | [] => 0
  | [i] => i
  | i :: j :: rest =>
    let m := argmaxOver l (j :: rest)
    if l.getD i 0 < l.getD m 0 then m else i

/-- Best not-yet-chosen index of `l`: the first maximal index outside
`excl`. -/
def bestIdx (l : List ℚ) (excl : List ℕ) : ℕ :=
  argmaxOver l ((List.range l.length).filter (fun i => !(excl.contains i)))

/-- Iterated selection for `torch.topk`: repeatedly pick the best remaining
index. -/
def topkGo (l : List ℚ) : ℕ → List ℕ → List ℕ
  | 0, acc => acc
  | Nat.succ k, acc => topkGo l k (acc ++ [bestIdx l acc])

/-- Indices of the `k` largest entries of `l` in descending order, ties
broken towards smaller indices (`torch.topk(..., sorted=True)` on line 228
and inside `_sample`). -/
def topkIdxs (l : List ℚ) (k : ℕ) : List ℕ := topkGo l k []

/-- Embedding of `_sample` (lines 155-169) restricted to what a single call
returns: on the stochastic branch the `torch.multinomial` draw is the
oracle `drawG` (its output clamped into range and padded to `k` entries,
the contract `multinomial` guarantees); on the greedy branch it is
`topk`.  In both branches the returned scores are the candidate values at
the selected indices, which is computed by the caller here. -/
def sampleIdxs (drawG : List ℚ → ℕ → List ℕ) (stoch : Bool) (l : List ℚ) (k : ℕ) : List ℕ :=
  if stoch then
    let raw := ((drawG l k).map (fun x => x % l.length)).take k
    raw ++ List.replicate (k - raw.length) 0
  else topkIdxs l k

/-! ### Per-step scoring (lines 215-222) -/

/-- Candidate cumulative score of beam `b` continued with token `t`:
`beam_scores.unsqueeze(-1) + log_probs * (1 - is_end)` (line 220). -/
def candScore (oracle : Oracle) (pfx : List ℕ) (s : BeamState) (b t : ℕ) : ℚ :=
  s.scores b + (if s.isEnd b then 0 else oracle (pfx ++ s.prevs b) t)

/-- Effective length `beam_lens + 1 - is_end` fed to `_length_penalty`
(line 221). -/
def effLen (s : BeamState) (b : ℕ) : ℕ :=
  s.lens b + 1 - (if s.isEnd b then 1 else 0)

/-- Length-penalty-normalized candidate score (line 222). -/
def normScore (cfg : Config) (oracle : Oracle) (pfx : List ℕ) (s : BeamState) (b t : ℕ) : ℚ :=
  candScore oracle pfx s b t / cfg.lengthPenalty (effLen s b)

/-- Diversity-adjusted candidate score used inside group `g`:
`g_beam_scores -= diversity_coef * diversity_penalty / g_penalty`
(line 238), with the counter state `dp`. -/
def adjScore (cfg : Config) (oracle : Oracle) (pfx : List ℕ) (s : BeamState)
    (dp : ℕ → ℕ) (b t : ℕ) : ℚ :=
  normScore cfg oracle pfx s b t -
    cfg.diversityCoef * (dp t : ℚ) / cfg.lengthPenalty (effLen s b)

/-- Flattened candidate list of diversity group `g` (lines 236-239): flat
index `j * V + t` holds the adjusted score of beam `g * group_size + j`
continued with token `t`. -/
def groupCands (cfg : Config) (oracle : Oracle) (pfx : List ℕ) (s : BeamState)
    (dp : ℕ → ℕ) (g : ℕ) : List ℚ :=
  (List.range (cfg.groupSize * cfg.nEmbeddings)).map
    (fun x => adjScore cfg oracle pfx s dp (g * cfg.groupSize + x / cfg.nEmbeddings)
      (x % cfg.nEmbeddings))

/-- Diversity counter entering group `g` of the current step: the state's
counter plus one occurrence for every token chosen by an earlier group
(`scatter_add_` of ones at `fmod(g_idxs, n_embeddings)`, lines 247-249;
the group offset added to `g_idxs` on line 242 is a multiple of the
vocabulary size, so the `fmod` recovers the local token id). -/
def dpAt (cfg : Config) (oracle : Oracle) (drawI : ℕ → List ℚ → ℕ → List ℕ) (st : Bool)
    (pfx : List ℕ) (s : BeamState) : ℕ → ℕ → ℕ
  | 0 => s.divPenalty
  | Nat.succ g => fun t =>
    dpAt cfg oracle drawI st pfx s g t +
      (sampleIdxs (drawI g) st (groupCands cfg oracle pfx s (dpAt cfg oracle drawI st pfx s g) g)
          cfg.groupSize).countP
        (fun x => x % cfg.nEmbeddings == t)

/-- Local flat indices selected by group `g` (line 241). -/
def selLocal (cfg : Config) (oracle : Oracle) (drawI : ℕ → List ℚ → ℕ → List ℕ) (st : Bool)
    (pfx : List ℕ) (s : BeamState) (g : ℕ) : List ℕ :=
  sampleIdxs (drawI g) st (groupCands cfg oracle pfx s (dpAt cfg oracle drawI st pfx s g) g)
    cfg.groupSize

/-- Concatenated globally-offset selected indices
(`idxs = torch.cat(all_idxs)` after `g_idxs += g * group_size * V`,
lines 242-254). -/
def flatIdxs (cfg : Config) (oracle : Oracle) (drawI : ℕ → List ℚ → ℕ → List ℕ) (st : Bool)
    (pfx : List ℕ) (s : BeamState) : List ℕ :=
  ((List.range cfg.diversityGroups).map
    (fun g => (selLocal cfg oracle drawI st pfx s g).map
      (fun x => x + g * cfg.groupSize * cfg.nEmbeddings))).flatten

/-- Concatenated selected scores (`beam_scores = torch.cat(all_scores)`,
line 253): the adjusted candidate values at the selected local indices. -/
def flatSels (cfg : Config) (oracle : Oracle) (drawI : ℕ → List ℚ → ℕ → List ℕ) (st : Bool)
    (pfx : List ℕ) (s : BeamState) : List ℚ :=
  ((List.range cfg.diversityGroups).map
    (fun g => (selLocal cfg oracle drawI st pfx s g).map
      (fun x => (groupCands cfg oracle pfx s (dpAt cfg oracle drawI st pfx s g) g).getD x 0))).flatten

/-! ### One decode step (lines 208-278) -/

/-- Failure modes of the Python code: `ZeroDivisionError` at
`beam_size // diversity_groups` when `diversity_groups = 0` (line 201,
raised before the loop); `topk` with `k` larger than the candidate count
(line 228, raised at step 0 after the model call); and the reshape
`view(batch, groups, group_size, -1)` on a tensor whose beam axis is not
`groups * group_size` (line 231-232, raised - or silently misgrouping,
equally fatal to the decode - at step 1 after two model calls). -/
inductive DecodeError where
  | zeroGroups : DecodeError
  | topkRange : DecodeError
  | shapeMismatch : DecodeError
deriving DecidableEq

/-- Result of one loop iteration.  `pre` and `stepIdx` record the entering
state and the step index for specification purposes; `selNorm` is the
selected normalized score vector before the re-multiplication of line 277,
`penRemult` the penalty vector (in pre-selection slot order, exactly as the
source's `penalty` tensor on lines 225/252) that line 277 multiplies by,
and `allEnded` the `all(is_end)` test of line 274. -/
structure StepResult where
  pre : BeamState
  stepIdx : ℕ
  state : BeamState
  parents : ℕ → ℕ
  flat : ℕ → ℕ
  sym : ℕ → ℕ
  selNorm : ℕ → ℚ
  penRemult : ℕ → ℚ
  allEnded : Bool

/-- Default step result used only for total extraction functions. -/
def dummyStep : StepResult :=
  ⟨emptyState, 0, emptyState, fun _ => 0, fun _ => 0, fun _ => 0, fun _ => 0, fun _ => 0, false⟩

/-- Common tail of a decode step (lines 256-277): derive parents and tokens
from the flat indices, gather `is_end`/`beam_lens`/`prevs` along the
parents, substitute padding for ended beams, update lengths and flags,
append the tokens, test `all(is_end)` and re-multiply the scores by the
penalty unless every beam ended. -/
def applySelection (cfg : Config) (i : ℕ) (s : BeamState) (idxs : List ℕ) (sels : List ℚ)
    (penR : ℕ → ℚ) (dpNew : ℕ → ℕ) : StepResult :=
  let V := cfg.nEmbeddings
  let parents : ℕ → ℕ := fun k => idxs.getD k 0 / V
  let symRaw : ℕ → ℕ := fun k => idxs.getD k 0 % V
  let isEnd1 : ℕ → Bool := fun k => s.isEnd (parents k)
  let lens1 : ℕ → ℕ := fun k => s.lens (parents k)
  let sym : ℕ → ℕ := fun k => if isEnd1 k then cfg.paddingIdx else symRaw k
  let lens2 : ℕ → ℕ := fun k => if isEnd1 k then lens1 k else lens1 k + 1
  let isEnd2 : ℕ → Bool := fun k => if sym k = cfg.eosId then true else isEnd1 k
  let prevs2 : ℕ → List ℕ := fun k => s.prevs (parents k) ++ [sym k]
  let aEnd : Bool := (List.range cfg.beamSize).all isEnd2
  let selN : ℕ → ℚ := fun k => sels.getD k 0
  let scores2 : ℕ → ℚ := fun k => if aEnd then selN k else selN k * penR k
  ⟨s, i, ⟨prevs2, scores2, lens2, isEnd2, dpNew⟩, parents, fun k => idxs.getD k 0, sym, selN,
    penR, aEnd⟩

/-- One iteration of the decode loop (lines 208-278).  Step 0 selects the
top `beam_size` tokens from beam 0's row alone (lines 224-229, with the
`topk` precondition `beam_size <= V`); later steps run the diversity-group
selection (lines 230-256) after the reshape precondition
`beam_size = diversity_groups * group_size`. -/
def beamStep (cfg : Config) (oracle : Oracle) (draw : ℕ → ℕ → List ℚ → ℕ → List ℕ)
    (stoch : ℕ → Bool) (pfx : List ℕ) (i : ℕ) (s : BeamState) :
    Except DecodeError StepResult :=
  if i = 0 then
    if cfg.nEmbeddings < cfg.beamSize then .error .topkRange
    else
      let row := (List.range cfg.nEmbeddings).map (normScore cfg oracle pfx s 0)
      let idxs := topkIdxs row cfg.beamSize
      let sels := idxs.map (fun x => row.getD x 0)
      .ok (applySelection cfg i s idxs sels (fun _ => cfg.lengthPenalty (effLen s 0)) s.divPenalty)
  else
    if cfg.beamSize ≠ cfg.diversityGroups * cfg.groupSize then .error .shapeMismatch
    else
      .ok (applySelection cfg i s
        (flatIdxs cfg oracle (draw i) (stoch i) pfx s)
        (flatSels cfg oracle (draw i) (stoch i) pfx s)
        (fun k => cfg.lengthPenalty (effLen s k)) (fun _ => 0))

/-! ### The decode loop (lines 205-297) -/

/-- Outcome of a full decode: final state or error, the number of loop
iterations entered (each iteration performs exactly one model invocation,
line 215; the post-loop extraction performs none), whether the loop exited
through the `all(is_end)` break of lines 274-275, and the last executed
step. -/
structure RunResult where
  state : Except DecodeError BeamState
  steps : ℕ
  brokeAllEnded : Bool
  lastStep : Option StepResult

/-- The decode loop: up to `fuel` iterations, breaking as soon as every
beam is ended (lines 274-275). -/
def beamLoop (cfg : Config) (oracle : Oracle) (draw : ℕ → ℕ → List ℚ → ℕ → List ℕ)
    (stoch : ℕ → Bool) (pfx : List ℕ) :
    ℕ → ℕ → BeamState → Option StepResult → RunResult
  | 0, i, s, last => ⟨.ok s, i, false, last⟩
  | Nat.succ fuel, i, s, last =>
    match beamStep cfg oracle draw stoch pfx i s with
    | .error e => ⟨.error e, i + 1, false, last⟩
    | .ok r =>
      if r.allEnded then ⟨.ok r.state, i + 1, true, some r⟩
      else beamLoop cfg oracle draw stoch pfx fuel (i + 1) r.state (some r)

/-- The loop bound of line 205:
`min(n_pos_embeddings - prevs.shape[1] - beam_starts.shape[1], max_seq_len)`
with `prevs.shape[1] = 1` at that point (a negative value yields an empty
`range`, i.e. zero iterations). -/
def decodeFuel (cfg : Config) (pfx : List ℕ) : ℕ :=
  (min (cfg.nPosEmbeddings - 1 - (pfx.length : ℤ)) cfg.maxSeqLen).toNat

/-- Full decode run for one batch item: the `ZeroDivisionError` of line 201
precedes the loop, everything else is the loop from the initial state. -/
def beamSearchRun (cfg : Config) (oracle : Oracle) (draw : ℕ → ℕ → List ℚ → ℕ → List ℕ)
    (stoch : ℕ → Bool) (pfx : List ℕ) : RunResult :=
  if cfg.diversityGroups = 0 then ⟨.error .zeroGroups, 0, false, none⟩
  else beamLoop cfg oracle draw stoch pfx (decodeFuel cfg pfx) 0 (initState cfg) none

/-! ### Result extraction (lines 280-297) -/

/-- Index of the best beam: `beam_scores.argmax(dim=-1)` (line 290; the
`sample_best_beam` multinomial draw of lines 286-288 compares the same
score tensor, which is all claim C10 speaks about). -/
def bestBeam (cfg : Config) (s : BeamState) : ℕ :=
  bestIdx ((List.range cfg.beamSize).map s.scores) []

/-- The returned sequence for the batch item:
`result[i, bests[i], 1:best_len-1]` (lines 292-295). -/
def predictOf (cfg : Config) (s : BeamState) : List ℕ :=
  ((s.prevs (bestBeam cfg s)).drop 1).take (s.lens (bestBeam cfg s) - 2)

/-- End-to-end decode returning the trimmed best sequence. -/
def beamSearchPredicts (cfg : Config) (oracle : Oracle) (draw : ℕ → ℕ → List ℚ → ℕ → List ℕ)
    (stoch : ℕ → Bool) (pfx : List ℕ) : Except DecodeError (List ℕ) :=
  (beamSearchRun cfg oracle draw stoch pfx).state.map (predictOf cfg)

/-- Total extraction of an `ok` state. -/
def okStateOr (d : BeamState) : Except DecodeError BeamState → BeamState
  | .ok s => s
  | .error _ => d

/-- Total extraction of an `ok` step result. -/
def okStepOr (d : StepResult) : Except DecodeError StepResult → StepResult
  | .ok r => r
  | .error _ => d

/-- The step result of one decode iteration (default on error). -/
def stepOf (cfg : Config) (oracle : Oracle) (draw : ℕ → ℕ → List ℚ → ℕ → List ℕ)
    (stoch : ℕ → Bool) (pfx : List ℕ) (i : ℕ) (s : BeamState) : StepResult :=
  okStepOr dummyStep (beamStep cfg oracle draw stoch pfx i s)

/-- The final beam state of a full decode run (default on error). -/
def runStateOf (cfg : Config) (oracle : Oracle) (draw : ℕ → ℕ → List ℚ → ℕ → List ℕ)
    (stoch : ℕ → Bool) (pfx : List ℕ) : BeamState :=
  okStateOr emptyState (beamSearchRun cfg oracle draw stoch pfx).state

/-! ### The length-penalty formula of `_length_penalty` (lines 151-153) -/

/-- The real-valued formula of `_length_penalty`:
`(5 + length) ** alpha / (5 + 1) ** alpha`. -/
noncomputable def lengthPenaltyReal (alpha l : ℝ) : ℝ :=
  (5 + l) ^ alpha / (5 + 1) ^ alpha

/-- Exact value of `_length_penalty` at `length_penalty = 0`: constantly
one.  Used as the penalty function of configurations with
`length_penalty_alpha = 0`. -/
def pen0 : ℕ → ℚ := fun _ => 1

/-- Exact value of `_length_penalty` at `length_penalty = 1`:
`(5 + l) / 6`.  Used as the penalty function of configurations with
`length_penalty_alpha = 1`. -/
def pen1 : ℕ → ℚ := fun l => (5 + (l : ℚ)) / 6

/-! ### Concrete instantiations for the scenario claims -/

/-- Trivial multinomial oracle; never consulted on greedy runs. -/
def drawNone : ℕ → ℕ → List ℚ → ℕ → List ℕ := fun _ _ _ _ => []

/-- Constant-false sampling stream: `random.random() < p` fails every
step, i.e. purely greedy selection. -/
def stochF : ℕ → Bool := fun _ => false

/-- Configuration of the claim C1 counterexample: vocabulary
`{pad = 0, bos = 1, eos = 2, a = 3, b = 4}`, two beams in one diversity
group, `diversity_coef = 0`, `length_penalty = 1`, one decode step. -/
def cfgC1a : Config := ⟨5, 100, 1, 1, 2, 0, 2, 1, 0, pen1⟩

/-- Model oracle of the claim C1 counterexample: from the seed, `eos` is
the best continuation and `a` the runner-up; afterwards everything is
equally bad, so both slots descend from the ended beam. -/
def oracleC1 : Oracle := fun h t =>
  if h = [1] then (if t = 2 then -1 else if t = 3 then -2 else -100)
  else -10

/-- Configuration of the claim C4 scenario: vocabulary
`{pad = 0, bos = 1, eos = 2, a = 3, b = 4}`, `beam_width = 1`,
`length_penalty_alpha = 0`, `max_decode_length = 5`. -/
def cfgC4 : Config := ⟨5, 100, 5, 1, 2, 0, 1, 1, 0, pen0⟩

/-- Model of the claim C4 scenario: deterministically emits `a`, then
`eos`, then padding forever. -/
def oracleC4 : Oracle := fun h t =>
  if h = [1] then (if t = 3 then -1 else -5)
  else if h = [1, 3] then (if t = 2 then -1 else -5)
  else (if t = 0 then -1 else -5)

/-- Model of the claim C3 counterexample: token `3` always best. -/
def oracleC3 : Oracle := fun _ t => if t = 3 then -1 else -5

/-- Configuration for the witnesses of the diversity-group claims:
`beam_width = 4`, `diversity_groups = 2`, `diversity_coef = 1`, no length
penalty. -/
def cfgC6 : Config := ⟨5, 100, 3, 1, 2, 0, 4, 2, 1, pen0⟩

/-- State after the first decode step of the claim C1 counterexample run
(the run bounded to a single step). -/
def stateC1 : BeamState := runStateOf cfgC1a oracleC1 drawNone stochF []

/-- Model of the claim C4 counterexample: alternates between favouring `a`
and `b` and never favours `eos`, so decoding runs to the length bound. -/
def oracleC4b : Oracle := fun h t =>
  if h.length % 2 = 1 then (if t = 3 then -1 else -5)
  else (if t = 4 then -1 else -5)

/-- Configuration of the claim C4 counterexample: `beam_width = 1`, three
decode steps, no length penalty. -/
def cfgC4b : Config := ⟨5, 100, 3, 1, 2, 0, 1, 1, 0, pen0⟩

/-- Reference greedy decoder of claim C8, written from the spec's words:
starting from the seed history, repeatedly append the single token with the
highest log-probability under the model given the tokens so far (first
index on ties), stopping at the end token or at the step bound.  It is the
specification side of the refinement claim; `beamSearchRun` is the code
side. -/
def greedyDecode (V eos : ℕ) (oracle : Oracle) (pfx : List ℕ) : ℕ → List ℕ → List ℕ
  | 0, h => h
  | Nat.succ n, h =>
    let t := bestIdx ((List.range V).map (oracle (pfx ++ h))) []
    if t = eos then h ++ [t] else greedyDecode V eos oracle pfx n (h ++ [t])

/-- Structural invariant of reachable beam states: every beam's history
starts with the seed token; a live beam's recorded length is its history
length; an ended beam's length is frozen (at least 2, at most the history
length), the end token sits at position `length - 1`, and everything after
it is padding. -/
def GoodState (cfg : Config) (s : BeamState) : Prop :=
  ∀ b, b < cfg.beamSize →
    (∃ rest, s.prevs b = cfg.bosId :: rest) ∧
    1 ≤ s.lens b ∧
    (s.isEnd b = false → s.lens b = (s.prevs b).length) ∧
    (s.isEnd b = true →
      2 ≤ s.lens b ∧ s.lens b ≤ (s.prevs b).length ∧
      (s.prevs b).getD (s.lens b - 1) 0 = cfg.eosId ∧
      ∀ j, s.lens b ≤ j → j < (s.prevs b).length → (s.prevs b).getD j 0 = cfg.paddingIdx)

/-! ## Theorems -/

/-! ### List toolbox -/

theorem getD_range_map {α : Type} (d : α) (f : ℕ → α) {n i : ℕ} (h : i < n) :
    ((List.range n).map f).getD i d = f i := by
  rw [List.getD_eq_getElem?_getD]
  simp [List.getElem?_map, List.getElem?_range, h]

theorem map_getD {α β : Type} (f : α → β) (l : List α) (d : β) (d' : α) {i : ℕ}
    (h : i < l.length) : (l.map f).getD i d = f (l.getD i d') := by
  rw [List.getD_eq_getElem?_getD, List.getD_eq_getElem?_getD, List.getElem?_map,
    List.getElem?_eq_getElem h]
  simp

theorem argmaxOver_mem (l : List ℚ) : ∀ c : List ℕ, c ≠ [] → argmaxOver l c ∈ c := by
  intro c
  induction c with
  | nil => simp
  | cons i rest ih =>
    intro _
    cases rest with
    | nil => simp [argmaxOver]
    | cons j rest2 =>
      simp only [argmaxOver]
      by_cases h : l.getD i 0 < l.getD (argmaxOver l (j :: rest2)) 0
      · rw [if_pos h]
        exact List.mem_cons_of_mem _ (ih (by simp))
      · rw [if_neg h]
        exact List.mem_cons_self i _

theorem bestIdx_lt (l : List ℚ) (excl : List ℕ) (h : 0 < l.length) :
    bestIdx l excl < l.length := by
  unfold bestIdx
  cases hc : (List.range l.length).filter (fun i => !(excl.contains i)) with
  | nil => simpa [argmaxOver] using h
  | cons a rest =>
    have hmem : argmaxOver l (a :: rest) ∈ a :: rest := argmaxOver_mem l _ (by simp)
    have hmem2 : argmaxOver l (a :: rest) ∈
        (List.range l.length).filter (fun i => !(excl.contains i)) := by
      rw [hc]; exact hmem
    exact List.mem_range.mp (List.mem_of_mem_filter hmem2)

theorem topkGo_length (l : List ℚ) : ∀ k acc, (topkGo l k acc).length = acc.length + k := by
  intro k
  induction k with
  | zero => intro acc; simp [topkGo]
  | succ n ih =>
    intro acc
    rw [topkGo, ih]
    simp
    omega

theorem topkIdxs_length (l : List ℚ) (k : ℕ) : (topkIdxs l k).length = k := by
  simp [topkIdxs, topkGo_length]

theorem topkGo_lt (l : List ℚ) (h : 0 < l.length) :
    ∀ k acc, (∀ x ∈ acc, x < l.length) → ∀ x ∈ topkGo l k acc, x < l.length := by
  intro k
  induction k with
  | zero => intro acc hacc; simpa [topkGo] using hacc
  | succ n ih =>
    intro acc hacc
    rw [topkGo]
    apply ih
    intro x hx
    rcases List.mem_append.mp hx with h1 | h1
    · exact hacc x h1
    · have : x = bestIdx l acc := by simpa using h1
      rw [this]
      exact bestIdx_lt l acc h

theorem topkIdxs_lt (l : List ℚ) (k : ℕ) (h : 0 < l.length) :
    ∀ x ∈ topkIdxs l k, x < l.length :=
  topkGo_lt l h k [] (by simp)

theorem sampleIdxs_length (drawG : List ℚ → ℕ → List ℕ) (st : Bool) (l : List ℚ) (k : ℕ) :
    (sampleIdxs drawG st l k).length = k := by
  unfold sampleIdxs
  cases st
  · simp [topkIdxs_length]
  · simp [List.length_take]

theorem sampleIdxs_lt (drawG : List ℚ → ℕ → List ℕ) (st : Bool) (l : List ℚ) (k : ℕ)
    (h : 0 < l.length) : ∀ x ∈ sampleIdxs drawG st l k, x < l.length := by
  unfold sampleIdxs
  cases st
  · simpa using topkIdxs_lt l k h
  · intro x hx
    simp only [if_true] at hx
    rcases List.mem_append.mp hx with h1 | h1
    · have h2 := List.mem_of_mem_take h1
      rcases List.mem_map.mp h2 with ⟨y, _, rfl⟩
      exact Nat.mod_lt _ h
    · have : x = 0 := List.eq_of_mem_replicate h1
      omega

theorem flatten_getD_uniform {α : Type} (d : α) (m : ℕ) (hm : 0 < m) :
    ∀ (L : List (List α)), (∀ l ∈ L, l.length = m) →
      ∀ k, k < L.length * m →
        L.flatten.getD k d = (L.getD (k / m) []).getD (k % m) d := by
  intro L
  induction L with
  | nil => intro _ k hk; simp at hk
  | cons hd tl ih =>
    intro hlen k hk
    have hhd : hd.length = m := hlen hd (by simp)
    rw [List.flatten_cons]
    by_cases hkm : k < m
    · rw [List.getD_append _ _ _ _ (by omega), Nat.div_eq_of_lt hkm, Nat.mod_eq_of_lt hkm]
      simp
    · push_neg at hkm
      have hk' : k - m < tl.length * m := by
        have h2 : (hd :: tl).length * m = tl.length * m + m := by
          simp [Nat.succ_mul]
        omega
      rw [List.getD_append_right _ _ _ _ (by omega), hhd,
        ih (fun l hl => hlen l (List.mem_cons_of_mem _ hl)) (k - m) hk',
        Nat.div_eq_sub_div hm hkm, Nat.mod_eq_sub_mod hkm]
      simp

/-- Claim C5: the length-penalty function equals
`(5 + length) ^ alpha / (5 + 1) ^ alpha`; for every `alpha > 0` it is
strictly increasing in the length over positive lengths, and for
`alpha = 0` it is constantly `1`. -/
theorem claim_C5_length_penalty (alpha : ℝ) :
    (∀ l : ℝ, lengthPenaltyReal alpha l = (5 + l) ^ alpha / (5 + 1) ^ alpha) ∧
    (0 < alpha → ∀ l1 l2 : ℝ, 0 < l1 → l1 < l2 →
      lengthPenaltyReal alpha l1 < lengthPenaltyReal alpha l2) ∧
    (alpha = 0 → ∀ l : ℝ, lengthPenaltyReal alpha l = 1) := by
  refine ⟨fun l => rfl, ?_, ?_⟩
  · intro ha l1 l2 h1 h12
    have h6 : (0:ℝ) < (5 + 1 : ℝ) ^ alpha := Real.rpow_pos_of_pos (by norm_num) _
    have hlt : (5 + l1 : ℝ) ^ alpha < (5 + l2) ^ alpha :=
      Real.rpow_lt_rpow (by linarith) (by linarith) ha
    unfold lengthPenaltyReal
    exact div_lt_div_of_pos_right hlt h6
  · intro h l
    subst h
    simp [lengthPenaltyReal, Real.rpow_zero]

/-- Witness for claim C5 at `alpha = 1` and lengths `1 < 2`. -/
theorem claim_C5_witness : lengthPenaltyReal 1 1 < lengthPenaltyReal 1 2 :=
  (claim_C5_length_penalty 1).2.1 (by norm_num) 1 2 (by norm_num) (by norm_num)

/-- The loop executes at most `fuel` further iterations. -/
theorem beamLoop_steps_le (cfg : Config) (oracle : Oracle)
    (draw : ℕ → ℕ → List ℚ → ℕ → List ℕ) (stoch : ℕ → Bool) (pfx : List ℕ) :
    ∀ fuel i s last, (beamLoop cfg oracle draw stoch pfx fuel i s last).steps ≤ i + fuel := by
  intro fuel
  induction fuel with
  | zero =>
    intro i s last
    simp [beamLoop]
  | succ n ih =>
    intro i s last
    unfold beamLoop
    cases hs : beamStep cfg oracle draw stoch pfx i s with
    | error e => simp
    | ok r =>
      cases hAE : r.allEnded
      · simp only [hAE, Bool.false_eq_true, if_false]
        have := ih (i + 1) r.state (some r)
        omega
      · simp [hAE]

/-- Claim C2: decoding enters the loop at most
`min(n_pos_embeddings - 1 - prefix_length, max_seq_len)` times (the
`toNat` renders the empty `range` of a negative bound), whatever the model
returns - in particular even if no beam ever emits the end token.  Each
iteration performs exactly one model invocation and the post-loop
extraction (`predictOf`) is a pure function of the final state, so no
model call occurs after the loop exits. -/
theorem claim_C2_termination (cfg : Config) (oracle : Oracle)
    (draw : ℕ → ℕ → List ℚ → ℕ → List ℕ) (stoch : ℕ → Bool) (pfx : List ℕ) :
    (beamSearchRun cfg oracle draw stoch pfx).steps ≤
      (min (cfg.nPosEmbeddings - 1 - (pfx.length : ℤ)) cfg.maxSeqLen).toNat := by
  unfold beamSearchRun
  by_cases h : cfg.diversityGroups = 0
  · simp [h]
  · simp only [h, if_false]
    simpa [decodeFuel] using beamLoop_steps_le cfg oracle draw stoch pfx _ 0 (initState cfg) none

/-! ### Selection-layer lemmas -/


theorem groupCands_length (cfg : Config) (oracle : Oracle) (pfx : List ℕ) (s : BeamState)
    (dp : ℕ → ℕ) (g : ℕ) :
    (groupCands cfg oracle pfx s dp g).length = cfg.groupSize * cfg.nEmbeddings := by
  simp [groupCands]

theorem groupCands_getD_flat (cfg : Config) (oracle : Oracle) (pfx : List ℕ) (s : BeamState)
    (dp : ℕ → ℕ) (g : ℕ) {x : ℕ} (hx : x < cfg.groupSize * cfg.nEmbeddings) :
    (groupCands cfg oracle pfx s dp g).getD x 0 =
      adjScore cfg oracle pfx s dp (g * cfg.groupSize + x / cfg.nEmbeddings)
        (x % cfg.nEmbeddings) := by
  rw [groupCands, getD_range_map _ _ hx]

theorem groupCands_getD (cfg : Config) (oracle : Oracle) (pfx : List ℕ) (s : BeamState)
    (dp : ℕ → ℕ) (g : ℕ) {j t : ℕ} (hj : j < cfg.groupSize) (ht : t < cfg.nEmbeddings) :
    (groupCands cfg oracle pfx s dp g).getD (j * cfg.nEmbeddings + t) 0 =
      adjScore cfg oracle pfx s dp (g * cfg.groupSize + j) t := by
  have hV : 0 < cfg.nEmbeddings := by omega
  have hx : j * cfg.nEmbeddings + t < cfg.groupSize * cfg.nEmbeddings := by
    have h1 : j * cfg.nEmbeddings + t < (j + 1) * cfg.nEmbeddings := by
      rw [Nat.succ_mul]; omega
    have h2 : (j + 1) * cfg.nEmbeddings ≤ cfg.groupSize * cfg.nEmbeddings :=
      Nat.mul_le_mul_right _ (by omega)
    omega
  rw [groupCands_getD_flat cfg oracle pfx s dp g hx]
  have e1 : j * cfg.nEmbeddings + t = t + j * cfg.nEmbeddings := by ring
  rw [e1, Nat.add_mul_div_right _ _ hV, Nat.div_eq_of_lt ht, Nat.add_mul_mod_self_right,
    Nat.mod_eq_of_lt ht]
  simp

theorem selLocal_length (cfg : Config) (oracle : Oracle) (drawI : ℕ → List ℚ → ℕ → List ℕ)
    (st : Bool) (pfx : List ℕ) (s : BeamState) (g : ℕ) :
    (selLocal cfg oracle drawI st pfx s g).length = cfg.groupSize := by
  rw [selLocal, sampleIdxs_length]

theorem selLocal_lt (cfg : Config) (oracle : Oracle) (drawI : ℕ → List ℚ → ℕ → List ℕ)
    (st : Bool) (pfx : List ℕ) (s : BeamState) (g : ℕ) (hgs : 0 < cfg.groupSize)
    (hV : 0 < cfg.nEmbeddings) :
    ∀ x ∈ selLocal cfg oracle drawI st pfx s g, x < cfg.groupSize * cfg.nEmbeddings := by
  intro x hx
  rw [selLocal] at hx
  have hl : 0 < (groupCands cfg oracle pfx s (dpAt cfg oracle drawI st pfx s g) g).length := by
    rw [groupCands_length]
    exact Nat.mul_pos hgs hV
  have h := sampleIdxs_lt _ _ _ _ hl x hx
  rwa [groupCands_length] at h

theorem flatIdxs_getD (cfg : Config) (oracle : Oracle) (drawI : ℕ → List ℚ → ℕ → List ℕ)
    (st : Bool) (pfx : List ℕ) (s : BeamState) (hgs : 0 < cfg.groupSize)
    {k : ℕ} (hk : k < cfg.diversityGroups * cfg.groupSize) :
    (flatIdxs cfg oracle drawI st pfx s).getD k 0 =
      (selLocal cfg oracle drawI st pfx s (k / cfg.groupSize)).getD (k % cfg.groupSize) 0 +
        (k / cfg.groupSize) * cfg.groupSize * cfg.nEmbeddings := by
  have hg : k / cfg.groupSize < cfg.diversityGroups :=
    (Nat.div_lt_iff_lt_mul hgs).mpr hk
  have hmod : k % cfg.groupSize < cfg.groupSize := Nat.mod_lt _ hgs
  unfold flatIdxs
  rw [flatten_getD_uniform 0 cfg.groupSize hgs _ ?hlen k ?hklt]
  case hlen =>
    intro l hl
    rcases List.mem_map.mp hl with ⟨g, _, rfl⟩
    simp [selLocal_length]
  case hklt => simpa using hk
  rw [getD_range_map _ _ hg, map_getD _ _ _ 0 (by rw [selLocal_length]; exact hmod)]

theorem getD_mem {α : Type} (l : List α) (d : α) {i : ℕ} (h : i < l.length) :
    l.getD i d ∈ l := by
  rw [List.getD_eq_getElem?_getD, List.getElem?_eq_getElem h]
  simp

theorem beamStep_else_eq (cfg : Config) (oracle : Oracle)
    (draw : ℕ → ℕ → List ℚ → ℕ → List ℕ) (stoch : ℕ → Bool) (pfx : List ℕ)
    (i : ℕ) (s : BeamState) (hi : i ≠ 0)
    (hsh : cfg.beamSize = cfg.diversityGroups * cfg.groupSize) :
    beamStep cfg oracle draw stoch pfx i s =
      .ok (applySelection cfg i s (flatIdxs cfg oracle (draw i) (stoch i) pfx s)
        (flatSels cfg oracle (draw i) (stoch i) pfx s)
        (fun k => cfg.lengthPenalty (effLen s k)) (fun _ => 0)) := by
  unfold beamStep
  rw [if_neg hi, if_neg (fun h => h hsh)]

theorem beamStep_else_shape (cfg : Config) (oracle : Oracle)
    (draw : ℕ → ℕ → List ℚ → ℕ → List ℕ) (stoch : ℕ → Bool) (pfx : List ℕ)
    (i : ℕ) (s : BeamState) (hi : i ≠ 0)
    (hok : (beamStep cfg oracle draw stoch pfx i s).isOk = true) :
    cfg.beamSize = cfg.diversityGroups * cfg.groupSize := by
  by_contra hne
  rw [beamStep, if_neg hi, if_pos hne] at hok
  simp [Except.isOk, Except.toBool] at hok

/-- Claim C7: at every step after step 0, each selected slot's beam parent
index equals the flat candidate index integer-divided by the vocabulary
size and the emitted token equals the flat index modulo the vocabulary
size; through the offset of line 242 the flat index is the group-local
selection plus the group base, so the parent lands inside the selecting
group's block of beams. -/
theorem claim_C7_parent_token (cfg : Config) (oracle : Oracle)
    (draw : ℕ → ℕ → List ℚ → ℕ → List ℕ) (stoch : ℕ → Bool) (pfx : List ℕ)
    (i : ℕ) (s : BeamState) (k : ℕ) (hi : i ≠ 0)
    (hok : (beamStep cfg oracle draw stoch pfx i s).isOk = true)
    (hk : k < cfg.beamSize) (hV : 0 < cfg.nEmbeddings) :
    (stepOf cfg oracle draw stoch pfx i s).parents k =
      (stepOf cfg oracle draw stoch pfx i s).flat k / cfg.nEmbeddings ∧
    (s.isEnd ((stepOf cfg oracle draw stoch pfx i s).parents k) = false →
      (stepOf cfg oracle draw stoch pfx i s).state.prevs k =
        s.prevs ((stepOf cfg oracle draw stoch pfx i s).parents k) ++
          [(stepOf cfg oracle draw stoch pfx i s).flat k % cfg.nEmbeddings]) ∧
    (stepOf cfg oracle draw stoch pfx i s).flat k =
      (selLocal cfg oracle (draw i) (stoch i) pfx s (k / cfg.groupSize)).getD
          (k % cfg.groupSize) 0 +
        (k / cfg.groupSize) * cfg.groupSize * cfg.nEmbeddings ∧
    (stepOf cfg oracle draw stoch pfx i s).parents k =
      (k / cfg.groupSize) * cfg.groupSize +
        (selLocal cfg oracle (draw i) (stoch i) pfx s (k / cfg.groupSize)).getD
            (k % cfg.groupSize) 0 / cfg.nEmbeddings ∧
    (k / cfg.groupSize) * cfg.groupSize ≤ (stepOf cfg oracle draw stoch pfx i s).parents k ∧
    (stepOf cfg oracle draw stoch pfx i s).parents k <
      (k / cfg.groupSize) * cfg.groupSize + cfg.groupSize ∧
    (stepOf cfg oracle draw stoch pfx i s).parents k < cfg.beamSize := by
  simp only [stepOf]
  have hsh := beamStep_else_shape cfg oracle draw stoch pfx i s hi hok
  have hgs : 0 < cfg.groupSize := by
    rcases Nat.eq_zero_or_pos cfg.groupSize with h0 | h
    · rw [h0, Nat.mul_zero] at hsh
      omega
    · exact h
  have hkgs : k < cfg.diversityGroups * cfg.groupSize := by omega
  have heq := beamStep_else_eq cfg oracle draw stoch pfx i s hi hsh
  set lidx := (selLocal cfg oracle (draw i) (stoch i) pfx s (k / cfg.groupSize)).getD
    (k % cfg.groupSize) 0 with hlidx
  have hmem : lidx ∈ selLocal cfg oracle (draw i) (stoch i) pfx s (k / cfg.groupSize) := by
    apply getD_mem
    rw [selLocal_length]
    exact Nat.mod_lt _ hgs
  have hloc : lidx < cfg.groupSize * cfg.nEmbeddings :=
    selLocal_lt cfg oracle (draw i) (stoch i) pfx s _ hgs hV _ hmem
  have hflat : (flatIdxs cfg oracle (draw i) (stoch i) pfx s).getD k 0 =
      lidx + (k / cfg.groupSize) * cfg.groupSize * cfg.nEmbeddings :=
    flatIdxs_getD cfg oracle (draw i) (stoch i) pfx s hgs hkgs
  have hdiv : (lidx + (k / cfg.groupSize) * cfg.groupSize * cfg.nEmbeddings) /
      cfg.nEmbeddings = (k / cfg.groupSize) * cfg.groupSize + lidx / cfg.nEmbeddings := by
    rw [Nat.add_mul_div_right _ _ hV]
    omega
  have hldiv : lidx / cfg.nEmbeddings < cfg.groupSize := by
    rw [Nat.div_lt_iff_lt_mul hV]
    exact hloc
  have hpar : (k / cfg.groupSize) * cfg.groupSize + lidx / cfg.nEmbeddings < cfg.beamSize := by
    have hg : k / cfg.groupSize < cfg.diversityGroups :=
      (Nat.div_lt_iff_lt_mul hgs).mpr hkgs
    have h1 : (k / cfg.groupSize) * cfg.groupSize + cfg.groupSize ≤
        cfg.diversityGroups * cfg.groupSize := by
      have h2 : (k / cfg.groupSize + 1) * cfg.groupSize ≤
          cfg.diversityGroups * cfg.groupSize :=
        Nat.mul_le_mul_right _ (by omega)
      rw [Nat.succ_mul] at h2
      exact h2
    omega
  have hflatP : (okStepOr dummyStep (beamStep cfg oracle draw stoch pfx i s)).flat k =
      lidx + (k / cfg.groupSize) * cfg.groupSize * cfg.nEmbeddings := by
    rw [heq]
    exact hflat
  have hparP : (okStepOr dummyStep (beamStep cfg oracle draw stoch pfx i s)).parents k =
      (k / cfg.groupSize) * cfg.groupSize + lidx / cfg.nEmbeddings := by
    rw [heq]
    show (flatIdxs cfg oracle (draw i) (stoch i) pfx s).getD k 0 / cfg.nEmbeddings = _
    rw [hflat]
    exact hdiv
  refine ⟨?_, ?_, hflatP, hparP, ?_, ?_, ?_⟩
  · rw [heq]
    rfl
  · intro hend
    rw [heq] at hend ⊢
    simp only [okStepOr, applySelection] at hend ⊢
    rw [List.getD_eq_getElem?_getD] at hend
    simp [hend]
  · rw [hparP]
    exact Nat.le_add_right _ _
  · rw [hparP]
    exact Nat.add_lt_add_left hldiv _
  · rw [hparP]
    exact hpar

/-- Witness for claim C7: the second decode step of the concrete
two-beam run, slot 0. -/
theorem claim_C7_witness :
    (stepOf cfgC1a oracleC1 drawNone stochF [] 1 stateC1).parents 0 =
      (stepOf cfgC1a oracleC1 drawNone stochF [] 1 stateC1).flat 0 / cfgC1a.nEmbeddings :=
  (claim_C7_parent_token cfgC1a oracleC1 drawNone stochF [] 1 stateC1 0 (by decide) (by decide)
    (by decide) (by decide)).1


/-! ### Claims C6 and C1 -/

theorem dpAt_succ (cfg : Config) (oracle : Oracle) (drawI : ℕ → List ℚ → ℕ → List ℕ)
    (st : Bool) (pfx : List ℕ) (s : BeamState) (g t : ℕ) :
    dpAt cfg oracle drawI st pfx s (g + 1) t =
      dpAt cfg oracle drawI st pfx s g t +
        (selLocal cfg oracle drawI st pfx s g).countP (fun x => x % cfg.nEmbeddings == t) := rfl

/-- Claim C6: at every step after step 0, the candidate score used for
group `g`, group-local beam `j` and token `t` is the normalized score
minus `diversity_coef * running_count[t] / penalty(beam)`, where the
running count is exactly the number of slots that groups `0 .. g-1` of the
current step assigned to token `t` (given the counter was zero on entry,
which the reset conjunct and the zero initialization establish for every
reachable step); and directly after any grouped step the counter is zero
again. -/
theorem claim_C6_diversity_penalty (cfg : Config) (oracle : Oracle)
    (drawI : ℕ → List ℚ → ℕ → List ℕ) (st : Bool) (pfx : List ℕ) (s : BeamState)
    (hdp : ∀ t2, s.divPenalty t2 = 0) (g j t : ℕ) (hj : j < cfg.groupSize)
    (ht : t < cfg.nEmbeddings) :
    (groupCands cfg oracle pfx s (dpAt cfg oracle drawI st pfx s g) g).getD
        (j * cfg.nEmbeddings + t) 0 =
      normScore cfg oracle pfx s (g * cfg.groupSize + j) t -
        cfg.diversityCoef * (dpAt cfg oracle drawI st pfx s g t : ℚ) /
          cfg.lengthPenalty (effLen s (g * cfg.groupSize + j)) ∧
    dpAt cfg oracle drawI st pfx s g t =
      ((List.range g).map
        (fun g2 => (selLocal cfg oracle drawI st pfx s g2).countP
          (fun x => x % cfg.nEmbeddings == t))).sum ∧
    (∀ (draw : ℕ → ℕ → List ℚ → ℕ → List ℕ) (stoch : ℕ → Bool) (i : ℕ) (s2 : BeamState)
      (t2 : ℕ), i ≠ 0 → (beamStep cfg oracle draw stoch pfx i s2).isOk = true →
      (stepOf cfg oracle draw stoch pfx i s2).state.divPenalty t2 = 0) ∧
    (initState cfg).divPenalty t = 0 := by
  refine ⟨groupCands_getD cfg oracle pfx s _ g hj ht, ?_, ?_, rfl⟩
  · induction g with
    | zero => simpa [dpAt] using hdp t
    | succ n ih =>
      rw [dpAt_succ, ih, List.range_succ, List.map_append, List.sum_append]
      simp
  · intro draw stoch i s2 t2 hi hok
    have hsh := beamStep_else_shape cfg oracle draw stoch pfx i s2 hi hok
    have heq := beamStep_else_eq cfg oracle draw stoch pfx i s2 hi hsh
    simp only [stepOf]
    rw [heq]
    rfl



theorem claim_C6_witness :
    dpAt cfgC6 oracleC3 (drawNone 1) false [] (initState cfgC6) 1 3 =
      ((List.range 1).map
        (fun g2 => (selLocal cfgC6 oracleC3 (drawNone 1) false [] (initState cfgC6) g2).countP
          (fun x => x % cfgC6.nEmbeddings == 3))).sum :=
  (claim_C6_diversity_penalty cfgC6 oracleC3 (drawNone 1) false [] (initState cfgC6)
    (fun _ => rfl) 1 0 3 (by decide) (by decide)).2.1

theorem applySelection_scores_eq (cfg : Config) (i : ℕ) (s : BeamState) (idxs : List ℕ)
    (sels : List ℚ) (penR : ℕ → ℚ) (dpN : ℕ → ℕ) (k : ℕ) :
    (applySelection cfg i s idxs sels penR dpN).state.scores k =
      (if (applySelection cfg i s idxs sels penR dpN).allEnded = true then 1 else penR k) *
        (applySelection cfg i s idxs sels penR dpN).selNorm k := by
  show (if (applySelection cfg i s idxs sels penR dpN).allEnded = true
      then (applySelection cfg i s idxs sels penR dpN).selNorm k
      else (applySelection cfg i s idxs sels penR dpN).selNorm k * penR k) = _
  cases hA : (applySelection cfg i s idxs sels penR dpN).allEnded
  · rw [if_neg (by simp), if_neg (by simp)]
    ring
  · rw [if_pos rfl, if_pos rfl]
    ring

theorem beamStep_zero_eq (cfg : Config) (oracle : Oracle)
    (draw : ℕ → ℕ → List ℚ → ℕ → List ℕ) (stoch : ℕ → Bool) (pfx : List ℕ) (s : BeamState)
    (hkV : ¬ cfg.nEmbeddings < cfg.beamSize) :
    beamStep cfg oracle draw stoch pfx 0 s =
      .ok (applySelection cfg 0 s
        (topkIdxs ((List.range cfg.nEmbeddings).map (normScore cfg oracle pfx s 0)) cfg.beamSize)
        ((topkIdxs ((List.range cfg.nEmbeddings).map (normScore cfg oracle pfx s 0))
            cfg.beamSize).map
          (fun x => ((List.range cfg.nEmbeddings).map (normScore cfg oracle pfx s 0)).getD x 0))
        (fun _ => cfg.lengthPenalty (effLen s 0)) s.divPenalty) := by
  unfold beamStep
  rw [if_pos rfl, if_neg hkV]

theorem beamStep_spec (cfg : Config) (oracle : Oracle)
    (draw : ℕ → ℕ → List ℚ → ℕ → List ℕ) (stoch : ℕ → Bool) (pfx : List ℕ)
    (i : ℕ) (s : BeamState) (r : StepResult)
    (hok : beamStep cfg oracle draw stoch pfx i s = .ok r) (k : ℕ) :
    r.pre = s ∧ r.stepIdx = i ∧
    r.allEnded = (List.range cfg.beamSize).all (fun b => r.state.isEnd b) ∧
    r.state.scores k = (if r.allEnded = true then 1 else r.penRemult k) * r.selNorm k ∧
    (i ≠ 0 → r.penRemult k = cfg.lengthPenalty (effLen s k)) := by
  by_cases hi : i = 0
  · subst hi
    have hkV : ¬ cfg.nEmbeddings < cfg.beamSize := by
      intro hc
      rw [beamStep, if_pos rfl, if_pos hc] at hok
      exact Except.noConfusion hok
    rw [beamStep_zero_eq cfg oracle draw stoch pfx s hkV] at hok
    have hr : _ = r := Except.ok.inj hok
    subst hr
    exact ⟨rfl, rfl, rfl, applySelection_scores_eq cfg 0 s _ _ _ _ k,
      fun h => absurd rfl h⟩
  · have hsh := beamStep_else_shape cfg oracle draw stoch pfx i s hi (by rw [hok]; rfl)
    rw [beamStep_else_eq cfg oracle draw stoch pfx i s hi hsh] at hok
    have hr : _ = r := Except.ok.inj hok
    subst hr
    exact ⟨rfl, rfl, rfl, applySelection_scores_eq cfg i s _ _ _ _ k, fun _ => rfl⟩

theorem beamLoop_lastStep (cfg : Config) (oracle : Oracle)
    (draw : ℕ → ℕ → List ℚ → ℕ → List ℕ) (stoch : ℕ → Bool) (pfx : List ℕ) :
    ∀ fuel i s last sFin r,
      (last = none ∨ ∃ r0, last = some r0 ∧ s = r0.state ∧ r0.allEnded = false ∧
        ∃ i0 s0, beamStep cfg oracle draw stoch pfx i0 s0 = .ok r0) →
      (beamLoop cfg oracle draw stoch pfx fuel i s last).state = .ok sFin →
      (beamLoop cfg oracle draw stoch pfx fuel i s last).lastStep = some r →
      sFin = r.state ∧
      (beamLoop cfg oracle draw stoch pfx fuel i s last).brokeAllEnded = r.allEnded ∧
      ∃ i0 s0, beamStep cfg oracle draw stoch pfx i0 s0 = .ok r := by
  intro fuel
  induction fuel with
  | zero =>
    intro i s last sFin r hinv hok hlast
    simp only [beamLoop] at hok hlast ⊢
    have hs : s = sFin := Except.ok.inj hok
    rcases hinv with hnone | ⟨r0, hr0, hsr, hAE, hws⟩
    · rw [hnone] at hlast
      exact Option.noConfusion hlast
    · rw [hr0] at hlast
      have hrr : r0 = r := Option.some.inj hlast
      subst hrr
      exact ⟨by rw [← hs, hsr], by rw [hAE], hws⟩
  | succ n ih =>
    intro i s last sFin r hinv hok hlast
    cases hs : beamStep cfg oracle draw stoch pfx i s with
    | error e =>
      simp only [beamLoop, hs] at hok
      exact Except.noConfusion hok
    | ok r1 =>
      cases hAE1 : r1.allEnded
      · simp only [beamLoop, hs, Bool.false_eq_true, if_false, hAE1] at hok hlast ⊢
        exact ih (i + 1) r1.state (some r1) sFin r
          (Or.inr ⟨r1, rfl, rfl, hAE1, ⟨i, s, hs⟩⟩) hok hlast
      · simp only [beamLoop, hs, hAE1, if_true] at hok hlast ⊢
        have h1 : r1.state = sFin := Except.ok.inj hok
        have h2 : r1 = r := Option.some.inj hlast
        subst h2
        exact ⟨h1.symm, hAE1.symm, ⟨i, s, hs⟩⟩

/-- Claim C10: when the loop exits through the all-ended break the final
best-beam selection compares the length-penalty-normalized selected
scores (the re-multiplication of line 277 is skipped); when it instead
runs to the maximum decode length the compared scores have been
re-multiplied (denormalized) by the penalty vector of the last step; so
the scale of the final comparison depends on the termination condition. -/
theorem claim_C10_score_scale (cfg : Config) (oracle : Oracle)
    (draw : ℕ → ℕ → List ℚ → ℕ → List ℕ) (stoch : ℕ → Bool) (pfx : List ℕ)
    (sFin : BeamState) (r : StepResult) (k : ℕ)
    (hok : (beamSearchRun cfg oracle draw stoch pfx).state = .ok sFin)
    (hlast : (beamSearchRun cfg oracle draw stoch pfx).lastStep = some r) :
    sFin = r.state ∧
    (beamSearchRun cfg oracle draw stoch pfx).brokeAllEnded = r.allEnded ∧
    r.allEnded = (List.range cfg.beamSize).all (fun b => sFin.isEnd b) ∧
    (r.allEnded = true → sFin.scores k = r.selNorm k) ∧
    (r.allEnded = false → sFin.scores k = r.selNorm k * r.penRemult k) ∧
    (r.stepIdx ≠ 0 → r.penRemult k = cfg.lengthPenalty (effLen r.pre k)) := by
  by_cases hG : cfg.diversityGroups = 0
  · rw [beamSearchRun, if_pos hG] at hok
    exact Except.noConfusion hok
  · rw [beamSearchRun, if_neg hG] at hok hlast
    have hrun := beamLoop_lastStep cfg oracle draw stoch pfx (decodeFuel cfg pfx) 0
      (initState cfg) none sFin r (Or.inl rfl) hok hlast
    obtain ⟨h1, h2, i0, s0, hws⟩ := hrun
    obtain ⟨hpre, hsi, hAEc, hsc, hpen⟩ := beamStep_spec cfg oracle draw stoch pfx i0 s0 r hws k
    refine ⟨h1, ?_, ?_, ?_, ?_, ?_⟩
    · rw [beamSearchRun, if_neg hG]
      exact h2
    · rw [hAEc, h1]
    · intro hT
      rw [h1, hsc, hT]
      simp
    · intro hF
      rw [h1, hsc, hF]
      simp [mul_comm]
    · intro hne
      rw [hpre]
      exact hpen (by rw [← hsi]; exact hne)

theorem claim_C10_witness :
    (runStateOf cfgC4 oracleC4 drawNone stochF []).scores 0 =
      ((beamSearchRun cfgC4 oracleC4 drawNone stochF []).lastStep.getD dummyStep).selNorm 0 :=
  ((claim_C10_score_scale cfgC4 oracleC4 drawNone stochF []
      (runStateOf cfgC4 oracleC4 drawNone stochF [])
      ((beamSearchRun cfgC4 oracleC4 drawNone stochF []).lastStep.getD dummyStep) 0
      (by rfl) (by rfl)).2.2.2.1 (by decide))

/-! ### Claim C8: refinement against the reference greedy decoder -/

theorem argmaxOver_affine (S P : ℚ) (hp : 0 < P) (f : ℕ → ℚ) (n : ℕ) :
    ∀ c : List ℕ, (∀ j ∈ c, j < n) →
      argmaxOver ((List.range n).map (fun t => (S + f t) / P)) c =
        argmaxOver ((List.range n).map f) c := by
  intro c
  induction c with
  | nil => intro _; simp [argmaxOver]
  | cons i rest ih =>
    intro hc
    cases rest with
    | nil => simp [argmaxOver]
    | cons j rest2 =>
      have hrec := ih (fun x hx => hc x (List.mem_cons_of_mem _ hx))
      simp only [argmaxOver]
      rw [hrec]
      have hi : i < n := hc i (List.mem_cons_self _ _)
      have hm : argmaxOver ((List.range n).map f) (j :: rest2) ∈ j :: rest2 :=
        argmaxOver_mem _ _ (by simp)
      have hm' : argmaxOver ((List.range n).map f) (j :: rest2) < n :=
        hc _ (List.mem_cons_of_mem _ hm)
      have hiff : (((List.range n).map (fun t => (S + f t) / P)).getD i 0 <
          ((List.range n).map (fun t => (S + f t) / P)).getD
            (argmaxOver ((List.range n).map f) (j :: rest2)) 0) ↔
          (((List.range n).map f).getD i 0 <
            ((List.range n).map f).getD (argmaxOver ((List.range n).map f) (j :: rest2)) 0) := by
        rw [getD_range_map _ _ hi, getD_range_map _ _ hm', getD_range_map _ _ hi,
          getD_range_map _ _ hm']
        constructor
        · intro h
          have h2 := (div_lt_div_iff_of_pos_right hp).mp h
          exact lt_of_add_lt_add_left h2
        · intro h
          exact div_lt_div_of_pos_right (by linarith) hp
      rw [if_congr hiff rfl rfl]

theorem bestIdx_affine (S P : ℚ) (hp : 0 < P) (f : ℕ → ℚ) (n : ℕ) :
    bestIdx ((List.range n).map (fun t => (S + f t) / P)) [] =
      bestIdx ((List.range n).map f) [] := by
  unfold bestIdx
  simp only [List.length_map, List.length_range]
  apply argmaxOver_affine S P hp
  intro j hj
  exact List.mem_range.mp (List.mem_of_mem_filter hj)



theorem topkIdxs_one (l : List ℚ) : topkIdxs l 1 = [bestIdx l []] := rfl

theorem applySelection_beam1 (cfg : Config) (i : ℕ) (s : BeamState) (tstar : ℕ)
    (sels : List ℚ) (penR : ℕ → ℚ) (dpN : ℕ → ℕ)
    (hb : cfg.beamSize = 1) (htV : tstar < cfg.nEmbeddings) (hlive : s.isEnd 0 = false) :
    (applySelection cfg i s [tstar] sels penR dpN).state.prevs 0 = s.prevs 0 ++ [tstar] ∧
    (tstar = cfg.eosId → (applySelection cfg i s [tstar] sels penR dpN).allEnded = true) ∧
    (tstar ≠ cfg.eosId → (applySelection cfg i s [tstar] sels penR dpN).allEnded = false ∧
      (applySelection cfg i s [tstar] sels penR dpN).state.isEnd 0 = false) ∧
    (applySelection cfg i s [tstar] sels penR dpN).state.divPenalty = dpN := by
  have hpar : [tstar].getD 0 0 / cfg.nEmbeddings = 0 := Nat.div_eq_of_lt htV
  have hmod : [tstar].getD 0 0 % cfg.nEmbeddings = tstar := Nat.mod_eq_of_lt htV
  have hr1 : List.range cfg.beamSize = [0] := by rw [hb]; rfl
  have hend0 : (applySelection cfg i s [tstar] sels penR dpN).state.isEnd 0 =
      (if tstar = cfg.eosId then true else false) := by
    show (if (if s.isEnd ([tstar].getD 0 0 / cfg.nEmbeddings) = true then cfg.paddingIdx
        else [tstar].getD 0 0 % cfg.nEmbeddings) = cfg.eosId then true
      else s.isEnd ([tstar].getD 0 0 / cfg.nEmbeddings)) = _
    rw [hpar, hlive, hmod]
    simp
  have hae : (applySelection cfg i s [tstar] sels penR dpN).allEnded =
      (if tstar = cfg.eosId then true else false) := by
    show (List.range cfg.beamSize).all
      (fun k => (applySelection cfg i s [tstar] sels penR dpN).state.isEnd k) = _
    rw [hr1]
    simp only [List.all_cons, List.all_nil, Bool.and_true]
    exact hend0
  refine ⟨?_, ?_, ?_, rfl⟩
  · show s.prevs ([tstar].getD 0 0 / cfg.nEmbeddings) ++
      [if s.isEnd ([tstar].getD 0 0 / cfg.nEmbeddings) = true then cfg.paddingIdx
        else [tstar].getD 0 0 % cfg.nEmbeddings] = s.prevs 0 ++ [tstar]
    rw [hpar, hmod, hlive]
    simp
  · intro ht
    rw [hae]
    simp [ht]
  · intro ht
    constructor
    · rw [hae]
      simp [ht]
    · rw [hend0]
      simp [ht]



theorem beamStep_beam1 (cfg : Config) (oracle : Oracle)
    (draw : ℕ → ℕ → List ℚ → ℕ → List ℕ) (stoch : ℕ → Bool) (pfx : List ℕ)
    (i : ℕ) (s : BeamState)
    (hb : cfg.beamSize = 1) (hG : cfg.diversityGroups = 1) (hV : 1 ≤ cfg.nEmbeddings)
    (hpen : ∀ n, 0 < cfg.lengthPenalty n) (hsti : stoch i = false)
    (hlive : s.isEnd 0 = false) (hdp : ∀ t, s.divPenalty t = 0) :
    ∃ r, beamStep cfg oracle draw stoch pfx i s = .ok r ∧
      r.state.prevs 0 = s.prevs 0 ++
        [bestIdx ((List.range cfg.nEmbeddings).map (oracle (pfx ++ s.prevs 0))) []] ∧
      (bestIdx ((List.range cfg.nEmbeddings).map (oracle (pfx ++ s.prevs 0))) [] = cfg.eosId →
        r.allEnded = true) ∧
      (bestIdx ((List.range cfg.nEmbeddings).map (oracle (pfx ++ s.prevs 0))) [] ≠ cfg.eosId →
        r.allEnded = false ∧ r.state.isEnd 0 = false) ∧
      (∀ t, r.state.divPenalty t = 0) := by
  have hgs1 : cfg.groupSize = 1 := by
    simp [Config.groupSize, hb, hG]
  have hrow : (List.range cfg.nEmbeddings).map (normScore cfg oracle pfx s 0) =
      (List.range cfg.nEmbeddings).map
        (fun t => (s.scores 0 + oracle (pfx ++ s.prevs 0) t) /
          cfg.lengthPenalty (effLen s 0)) := by
    apply List.map_congr_left
    intro t _
    simp [normScore, candScore, hlive]
  have hbest : bestIdx ((List.range cfg.nEmbeddings).map (normScore cfg oracle pfx s 0)) [] =
      bestIdx ((List.range cfg.nEmbeddings).map (oracle (pfx ++ s.prevs 0))) [] := by
    rw [hrow]
    exact bestIdx_affine (s.scores 0) (cfg.lengthPenalty (effLen s 0))
      (hpen (effLen s 0)) (oracle (pfx ++ s.prevs 0)) cfg.nEmbeddings
  have htV : bestIdx ((List.range cfg.nEmbeddings).map (normScore cfg oracle pfx s 0)) [] <
      cfg.nEmbeddings := by
    have h := bestIdx_lt ((List.range cfg.nEmbeddings).map (normScore cfg oracle pfx s 0)) []
      (by simpa using hV)
    simpa using h
  by_cases hi : i = 0
  · subst hi
    have hkV : ¬ cfg.nEmbeddings < cfg.beamSize := by omega
    rw [beamStep_zero_eq cfg oracle draw stoch pfx s hkV]
    have htop : topkIdxs ((List.range cfg.nEmbeddings).map (normScore cfg oracle pfx s 0))
        cfg.beamSize =
        [bestIdx ((List.range cfg.nEmbeddings).map (normScore cfg oracle pfx s 0)) []] := by
      rw [hb]
      exact topkIdxs_one _
    rw [htop]
    refine ⟨_, rfl, ?_⟩
    have happ := applySelection_beam1 cfg 0 s
      (bestIdx ((List.range cfg.nEmbeddings).map (normScore cfg oracle pfx s 0)) [])
      ([bestIdx ((List.range cfg.nEmbeddings).map (normScore cfg oracle pfx s 0)) []].map
        (fun x => ((List.range cfg.nEmbeddings).map (normScore cfg oracle pfx s 0)).getD x 0))
      (fun _ => cfg.lengthPenalty (effLen s 0)) s.divPenalty hb htV hlive
    rw [← hbest]
    obtain ⟨h1, h2, h3, h4⟩ := happ
    exact ⟨h1, h2, h3, fun t => by rw [h4]; exact hdp t⟩
  · have hcands : ∀ st : Bool,
        groupCands cfg oracle pfx s (dpAt cfg oracle (draw i) st pfx s 0) 0 =
          (List.range cfg.nEmbeddings).map (normScore cfg oracle pfx s 0) := by
      intro st
      unfold groupCands
      rw [hgs1, one_mul]
      apply List.map_congr_left
      intro x hx
      have hxV : x < cfg.nEmbeddings := List.mem_range.mp hx
      rw [Nat.div_eq_of_lt hxV, Nat.mod_eq_of_lt hxV]
      simp [adjScore, dpAt, hdp x]
    have hsel : selLocal cfg oracle (draw i) (stoch i) pfx s 0 =
        [bestIdx ((List.range cfg.nEmbeddings).map (normScore cfg oracle pfx s 0)) []] := by
      rw [selLocal, sampleIdxs, hsti]
      simp only [Bool.false_eq_true, if_false]
      rw [hgs1, hcands false]
      exact topkIdxs_one _
    have hflat : flatIdxs cfg oracle (draw i) (stoch i) pfx s =
        [bestIdx ((List.range cfg.nEmbeddings).map (normScore cfg oracle pfx s 0)) []] := by
      unfold flatIdxs
      rw [hG]
      show ([(selLocal cfg oracle (draw i) (stoch i) pfx s 0).map
        (fun x => x + 0 * cfg.groupSize * cfg.nEmbeddings)]).flatten = _
      rw [hsel]
      simp
    have hsh : cfg.beamSize = cfg.diversityGroups * cfg.groupSize := by
      rw [hb, hG, hgs1]
    rw [beamStep_else_eq cfg oracle draw stoch pfx i s hi hsh, hflat]
    refine ⟨_, rfl, ?_⟩
    have happ := applySelection_beam1 cfg i s
      (bestIdx ((List.range cfg.nEmbeddings).map (normScore cfg oracle pfx s 0)) [])
      (flatSels cfg oracle (draw i) (stoch i) pfx s)
      (fun k => cfg.lengthPenalty (effLen s k)) (fun _ => 0) hb htV hlive
    rw [← hbest]
    obtain ⟨h1, h2, h3, h4⟩ := happ
    exact ⟨h1, h2, h3, fun t => by rw [h4]⟩



theorem beamLoop_greedy (cfg : Config) (oracle : Oracle)
    (draw : ℕ → ℕ → List ℚ → ℕ → List ℕ) (stoch : ℕ → Bool) (pfx : List ℕ)
    (hb : cfg.beamSize = 1) (hG : cfg.diversityGroups = 1) (hV : 1 ≤ cfg.nEmbeddings)
    (hpen : ∀ n, 0 < cfg.lengthPenalty n) (hst : ∀ j, stoch j = false) :
    ∀ fuel i s last, s.isEnd 0 = false → (∀ t, s.divPenalty t = 0) →
      (beamLoop cfg oracle draw stoch pfx fuel i s last).state.isOk = true ∧
      (okStateOr emptyState (beamLoop cfg oracle draw stoch pfx fuel i s last).state).prevs 0 =
        greedyDecode cfg.nEmbeddings cfg.eosId oracle pfx fuel (s.prevs 0) := by
  intro fuel
  induction fuel with
  | zero =>
    intro i s last hlive hdp
    simp [beamLoop, greedyDecode, okStateOr, Except.isOk, Except.toBool]
  | succ n ih =>
    intro i s last hlive hdp
    obtain ⟨r, hstep, hprevs, hT, hF, hdp'⟩ :=
      beamStep_beam1 cfg oracle draw stoch pfx i s hb hG hV hpen (hst i) hlive hdp
    by_cases ht : bestIdx ((List.range cfg.nEmbeddings).map (oracle (pfx ++ s.prevs 0))) [] =
        cfg.eosId
    · have hAE := hT ht
      constructor
      · simp [beamLoop, hstep, hAE, Except.isOk, Except.toBool]
      · simp only [beamLoop, hstep, hAE, if_true]
        show r.state.prevs 0 = _
        rw [hprevs]
        simp only [greedyDecode]
        rw [if_pos ht]
    · obtain ⟨hAE, hlive2⟩ := hF ht
      have hrec := ih (i + 1) r.state (some r) hlive2 hdp'
      constructor
      · simp only [beamLoop, hstep, hAE, Bool.false_eq_true, if_false]
        exact hrec.1
      · simp only [beamLoop, hstep, hAE, Bool.false_eq_true, if_false]
        rw [hrec.2, hprevs]
        simp only [greedyDecode]
        rw [if_neg ht]

/-- Claim C8: with `beam_width = 1`, one diversity group and greedy
selection, decoding is deterministic and its single beam's token history
equals that of the reference greedy decoder, which at every step appends
the token with the highest log-probability given the tokens so far, until
the end token or the length bound. -/
theorem claim_C8_greedy_equiv (cfg : Config) (oracle : Oracle)
    (draw : ℕ → ℕ → List ℚ → ℕ → List ℕ) (stoch : ℕ → Bool) (pfx : List ℕ)
    (hb : cfg.beamSize = 1) (hG : cfg.diversityGroups = 1) (hV : 1 ≤ cfg.nEmbeddings)
    (hpen : ∀ n, 0 < cfg.lengthPenalty n) (hst : ∀ j, stoch j = false) :
    (beamSearchRun cfg oracle draw stoch pfx).state.isOk = true ∧
    (runStateOf cfg oracle draw stoch pfx).prevs 0 =
      greedyDecode cfg.nEmbeddings cfg.eosId oracle pfx (decodeFuel cfg pfx) [cfg.bosId] := by
  have h := beamLoop_greedy cfg oracle draw stoch pfx hb hG hV hpen hst
    (decodeFuel cfg pfx) 0 (initState cfg) none rfl (fun _ => rfl)
  unfold runStateOf beamSearchRun
  rw [if_neg (by omega)]
  exact ⟨h.1, h.2⟩

theorem claim_C8_witness :
    (runStateOf cfgC4 oracleC4 drawNone stochF []).prevs 0 =
      greedyDecode cfgC4.nEmbeddings cfgC4.eosId oracleC4 [] (decodeFuel cfgC4 [])
        [cfgC4.bosId] :=
  (claim_C8_greedy_equiv cfgC4 oracleC4 drawNone stochF [] (by decide) (by decide) (by decide)
    (fun n => by show (0:ℚ) < 1; norm_num) (fun j => rfl)).2

/-! ### Claim C4: result extraction -/

theorem flatIdxs_getD_lt (cfg : Config) (oracle : Oracle)
    (drawI : ℕ → List ℚ → ℕ → List ℕ) (st : Bool) (pfx : List ℕ) (s : BeamState)
    (hgs : 0 < cfg.groupSize) (hV : 0 < cfg.nEmbeddings)
    {k : ℕ} (hk : k < cfg.diversityGroups * cfg.groupSize) :
    (flatIdxs cfg oracle drawI st pfx s).getD k 0 <
      (cfg.diversityGroups * cfg.groupSize) * cfg.nEmbeddings := by
  rw [flatIdxs_getD cfg oracle drawI st pfx s hgs hk]
  have hg : k / cfg.groupSize < cfg.diversityGroups := (Nat.div_lt_iff_lt_mul hgs).mpr hk
  have hmem : (selLocal cfg oracle drawI st pfx s (k / cfg.groupSize)).getD
      (k % cfg.groupSize) 0 ∈ selLocal cfg oracle drawI st pfx s (k / cfg.groupSize) := by
    apply getD_mem
    rw [selLocal_length]
    exact Nat.mod_lt _ hgs
  have hloc := selLocal_lt cfg oracle drawI st pfx s _ hgs hV _ hmem
  have h1 : (selLocal cfg oracle drawI st pfx s (k / cfg.groupSize)).getD
        (k % cfg.groupSize) 0 + (k / cfg.groupSize) * cfg.groupSize * cfg.nEmbeddings <
      (k / cfg.groupSize + 1) * cfg.groupSize * cfg.nEmbeddings := by
    have e1 : (k / cfg.groupSize + 1) * cfg.groupSize * cfg.nEmbeddings =
        cfg.groupSize * cfg.nEmbeddings +
          (k / cfg.groupSize) * cfg.groupSize * cfg.nEmbeddings := by
      ring
    omega
  have h2 : (k / cfg.groupSize + 1) * cfg.groupSize * cfg.nEmbeddings ≤
      cfg.diversityGroups * cfg.groupSize * cfg.nEmbeddings := by
    have := Nat.mul_le_mul_right (cfg.groupSize * cfg.nEmbeddings)
      (Nat.succ_le_of_lt hg)
    calc (k / cfg.groupSize + 1) * cfg.groupSize * cfg.nEmbeddings
        = (k / cfg.groupSize + 1) * (cfg.groupSize * cfg.nEmbeddings) := by ring
    _ ≤ cfg.diversityGroups * (cfg.groupSize * cfg.nEmbeddings) := this
    _ = cfg.diversityGroups * cfg.groupSize * cfg.nEmbeddings := by ring
  omega

theorem applySelection_fields (cfg : Config) (i : ℕ) (s : BeamState) (idxs : List ℕ)
    (sels : List ℚ) (penR : ℕ → ℚ) (dpN : ℕ → ℕ) (k : ℕ)
    (hidx : idxs.getD k 0 < cfg.beamSize * cfg.nEmbeddings) (hV : 0 < cfg.nEmbeddings) :
    (applySelection cfg i s idxs sels penR dpN).parents k < cfg.beamSize ∧
    (applySelection cfg i s idxs sels penR dpN).sym k =
      (if s.isEnd ((applySelection cfg i s idxs sels penR dpN).parents k) = true
        then cfg.paddingIdx
        else (applySelection cfg i s idxs sels penR dpN).flat k % cfg.nEmbeddings) ∧
    (applySelection cfg i s idxs sels penR dpN).state.prevs k =
      s.prevs ((applySelection cfg i s idxs sels penR dpN).parents k) ++
        [(applySelection cfg i s idxs sels penR dpN).sym k] ∧
    (applySelection cfg i s idxs sels penR dpN).state.lens k =
      (if s.isEnd ((applySelection cfg i s idxs sels penR dpN).parents k) = true
        then s.lens ((applySelection cfg i s idxs sels penR dpN).parents k)
        else s.lens ((applySelection cfg i s idxs sels penR dpN).parents k) + 1) ∧
    (applySelection cfg i s idxs sels penR dpN).state.isEnd k =
      (if (applySelection cfg i s idxs sels penR dpN).sym k = cfg.eosId then true
        else s.isEnd ((applySelection cfg i s idxs sels penR dpN).parents k)) := by
  refine ⟨?_, rfl, rfl, rfl, rfl⟩
  show idxs.getD k 0 / cfg.nEmbeddings < cfg.beamSize
  rw [Nat.div_lt_iff_lt_mul hV]
  exact hidx



theorem beamStep_fields (cfg : Config) (oracle : Oracle)
    (draw : ℕ → ℕ → List ℚ → ℕ → List ℕ) (stoch : ℕ → Bool) (pfx : List ℕ)
    (i : ℕ) (s : BeamState) (r : StepResult)
    (hok : beamStep cfg oracle draw stoch pfx i s = .ok r) (k : ℕ)
    (hk : k < cfg.beamSize) (hV : 0 < cfg.nEmbeddings) :
    r.parents k < cfg.beamSize ∧
    r.sym k = (if s.isEnd (r.parents k) = true then cfg.paddingIdx
      else r.flat k % cfg.nEmbeddings) ∧
    r.state.prevs k = s.prevs (r.parents k) ++ [r.sym k] ∧
    r.state.lens k = (if s.isEnd (r.parents k) = true then s.lens (r.parents k)
      else s.lens (r.parents k) + 1) ∧
    r.state.isEnd k = (if r.sym k = cfg.eosId then true else s.isEnd (r.parents k)) := by
  by_cases hi : i = 0
  · subst hi
    have hkV : ¬ cfg.nEmbeddings < cfg.beamSize := by
      intro hc
      rw [beamStep, if_pos rfl, if_pos hc] at hok
      exact Except.noConfusion hok
    rw [beamStep_zero_eq cfg oracle draw stoch pfx s hkV] at hok
    have hr : _ = r := Except.ok.inj hok
    subst hr
    apply applySelection_fields
    · have hrl : 0 < ((List.range cfg.nEmbeddings).map (normScore cfg oracle pfx s 0)).length := by
        simp
        omega
      have hlt : (topkIdxs ((List.range cfg.nEmbeddings).map (normScore cfg oracle pfx s 0))
          cfg.beamSize).getD k 0 <
          ((List.range cfg.nEmbeddings).map (normScore cfg oracle pfx s 0)).length := by
        apply topkIdxs_lt _ cfg.beamSize hrl
        apply getD_mem
        rw [topkIdxs_length]
        exact hk
      have hlen : ((List.range cfg.nEmbeddings).map
          (normScore cfg oracle pfx s 0)).length = cfg.nEmbeddings := by simp
      rw [hlen] at hlt
      have hbm : cfg.nEmbeddings ≤ cfg.beamSize * cfg.nEmbeddings :=
        Nat.le_mul_of_pos_left _ (by omega)
      omega
    · exact hV
  · have hsh := beamStep_else_shape cfg oracle draw stoch pfx i s hi (by rw [hok]; rfl)
    have hgs : 0 < cfg.groupSize := by
      rcases Nat.eq_zero_or_pos cfg.groupSize with h0 | h
      · rw [h0, Nat.mul_zero] at hsh
        omega
      · exact h
    rw [beamStep_else_eq cfg oracle draw stoch pfx i s hi hsh] at hok
    have hr : _ = r := Except.ok.inj hok
    subst hr
    apply applySelection_fields
    · have hkgs : k < cfg.diversityGroups * cfg.groupSize := by omega
      have hbd := flatIdxs_getD_lt cfg oracle (draw i) (stoch i) pfx s hgs hV hkgs
      rw [← hsh] at hbd
      exact hbd
    · exact hV

theorem initState_good (cfg : Config) : GoodState cfg (initState cfg) := by
  intro b hb
  refine ⟨⟨[], rfl⟩, le_refl 1, fun _ => rfl, fun h => ?_⟩
  exact absurd h (by simp [initState])

theorem beamStep_good (cfg : Config) (oracle : Oracle)
    (draw : ℕ → ℕ → List ℚ → ℕ → List ℕ) (stoch : ℕ → Bool) (pfx : List ℕ)
    (i : ℕ) (s : BeamState) (r : StepResult)
    (hok : beamStep cfg oracle draw stoch pfx i s = .ok r) (hV : 0 < cfg.nEmbeddings)
    (hgood : GoodState cfg s) : GoodState cfg r.state := by
  intro k hk
  obtain ⟨hpb, hsym, hprevs, hlens, hisEnd⟩ :=
    beamStep_fields cfg oracle draw stoch pfx i s r hok k hk hV
  obtain ⟨⟨rest, hrest⟩, hlen1, hlive, hended⟩ := hgood (r.parents k) hpb
  cases hpe : s.isEnd (r.parents k) with
  | false =>
    rw [hpe] at hsym hlens
    simp only [Bool.false_eq_true, if_false] at hsym hlens
    have hlenp : s.lens (r.parents k) = (s.prevs (r.parents k)).length := hlive hpe
    refine ⟨⟨rest ++ [r.sym k], by rw [hprevs, hrest]; simp⟩, by omega, ?_, ?_⟩
    · intro hke
      rw [hisEnd] at hke
      by_cases hsymeq : r.sym k = cfg.eosId
      · rw [if_pos hsymeq] at hke
        exact absurd hke (by simp)
      · rw [hprevs, hlens, hlenp]
        simp
    · intro hke
      rw [hisEnd] at hke
      by_cases hsymeq : r.sym k = cfg.eosId
      · refine ⟨by omega, ?_, ?_, ?_⟩
        · rw [hprevs, hlens, hlenp]
          simp
        · rw [hprevs, hlens, hlenp]
          have he : (s.prevs (r.parents k)).length + 1 - 1 =
              (s.prevs (r.parents k)).length := by omega
          rw [he, List.getD_append_right _ _ _ _ (le_refl _), Nat.sub_self]
          rw [hsymeq]
          rfl
        · intro j hj1 hj2
          rw [hprevs] at hj2
          simp at hj2
          rw [hlens, hlenp] at hj1
          omega
      · rw [if_neg hsymeq, hpe] at hke
        exact absurd hke (by simp)
  | true =>
    rw [hpe] at hsym hlens
    simp only [if_pos] at hsym hlens
    obtain ⟨hl2, hlle, heos, hpads⟩ := hended hpe
    have hkend : r.state.isEnd k = true := by
      rw [hisEnd, hpe]
      by_cases hsymeq : r.sym k = cfg.eosId
      · rw [if_pos hsymeq]
      · rw [if_neg hsymeq]
    refine ⟨⟨rest ++ [r.sym k], by rw [hprevs, hrest]; simp⟩, by omega, ?_, ?_⟩
    · intro hke
      rw [hkend] at hke
      exact absurd hke (by simp)
    · intro _
      refine ⟨by omega, ?_, ?_, ?_⟩
      · rw [hprevs, hlens]
        simp
        omega
      · rw [hprevs, hlens, List.getD_append _ _ _ _ (by omega)]
        exact heos
      · intro j hj1 hj2
        rw [hlens] at hj1
        rw [hprevs] at hj2
        simp at hj2
        by_cases hjlt : j < (s.prevs (r.parents k)).length
        · rw [hprevs, List.getD_append _ _ _ _ hjlt]
          exact hpads j hj1 hjlt
        · have hje : j = (s.prevs (r.parents k)).length := by omega
          rw [hprevs, hje, List.getD_append_right _ _ _ _ (le_refl _), Nat.sub_self]
          rw [hsym]
          rfl



theorem beamLoop_good (cfg : Config) (oracle : Oracle)
    (draw : ℕ → ℕ → List ℚ → ℕ → List ℕ) (stoch : ℕ → Bool) (pfx : List ℕ)
    (hV : 0 < cfg.nEmbeddings) :
    ∀ fuel i s last sFin, GoodState cfg s →
      (beamLoop cfg oracle draw stoch pfx fuel i s last).state = .ok sFin →
      GoodState cfg sFin := by
  intro fuel
  induction fuel with
  | zero =>
    intro i s last sFin hgood hok
    simp only [beamLoop] at hok
    rw [← Except.ok.inj hok]
    exact hgood
  | succ n ih =>
    intro i s last sFin hgood hok
    cases hs : beamStep cfg oracle draw stoch pfx i s with
    | error e =>
      simp only [beamLoop, hs] at hok
      exact Except.noConfusion hok
    | ok r =>
      have hrgood := beamStep_good cfg oracle draw stoch pfx i s r hs hV hgood
      cases hAE : r.allEnded
      · simp only [beamLoop, hs, hAE, Bool.false_eq_true, if_false] at hok
        exact ih (i + 1) r.state (some r) sFin hrgood hok
      · simp only [beamLoop, hs, hAE, if_true] at hok
        rw [← Except.ok.inj hok]
        exact hrgood

theorem bestBeam_lt (cfg : Config) (s : BeamState) (hb : 0 < cfg.beamSize) :
    bestBeam cfg s < cfg.beamSize := by
  have h := bestIdx_lt ((List.range cfg.beamSize).map s.scores) [] (by simpa using hb)
  simpa using h

/-- Claim C4 (amended): when the selected best beam ended, the returned
sequence is exactly the content between the seed token and the end token
(with the trailing padding run excluded, and an empty sequence when there
is no content); the source's slice `1 : best_len - 1` drops the first and
the last recorded positions unconditionally, so a beam cut off at the
maximum decode length also loses its final content token (see the
counterexample); and the spec's concrete scenario decodes to exactly
`[3]`. -/
theorem claim_C4_extraction (cfg : Config) (oracle : Oracle)
    (draw : ℕ → ℕ → List ℚ → ℕ → List ℕ) (stoch : ℕ → Bool) (pfx : List ℕ)
    (sFin : BeamState)
    (hok : (beamSearchRun cfg oracle draw stoch pfx).state = .ok sFin)
    (hV : 0 < cfg.nEmbeddings) (hb : 0 < cfg.beamSize)
    (hend : sFin.isEnd (bestBeam cfg sFin) = true) :
    (∃ pads : List ℕ, (∀ x ∈ pads, x = cfg.paddingIdx) ∧
      sFin.prevs (bestBeam cfg sFin) =
        cfg.bosId :: (predictOf cfg sFin ++ cfg.eosId :: pads)) ∧
    beamSearchPredicts cfgC4 oracleC4 drawNone stochF [] = .ok [3] := by
  constructor
  · have hG0 : cfg.diversityGroups ≠ 0 := by
      intro h0
      rw [beamSearchRun, if_pos h0] at hok
      exact Except.noConfusion hok
    rw [beamSearchRun, if_neg hG0] at hok
    have hgood := beamLoop_good cfg oracle draw stoch pfx hV (decodeFuel cfg pfx) 0
      (initState cfg) none sFin (initState_good cfg) hok
    obtain ⟨⟨rest, hrest⟩, hlen1, hlive, hended⟩ := hgood (bestBeam cfg sFin)
      (bestBeam_lt cfg sFin hb)
    obtain ⟨hl2, hlle, heos, hpads⟩ := hended hend
    set b := bestBeam cfg sFin with hbdef
    set L := sFin.lens b with hLdef
    have hrl : (sFin.prevs b).length = rest.length + 1 := by rw [hrest]; simp
    have hLr : L ≤ rest.length + 1 := by omega
    have hL2r : L - 2 < rest.length := by omega
    have hpredict : predictOf cfg sFin = rest.take (L - 2) := by
      unfold predictOf
      rw [← hbdef, ← hLdef, hrest]
      simp
    refine ⟨rest.drop (L - 1), ?_, ?_⟩
    · intro x hx
      rw [List.mem_iff_getElem] at hx
      obtain ⟨idx, hidx, hxe⟩ := hx
      have hidx2 : L - 1 + idx < rest.length := by
        have := List.length_drop (L - 1) rest
        omega
      rw [List.getElem_drop] at hxe
      have hgd : rest.getD (L - 1 + idx) 0 = x := by
        rw [List.getD_eq_getElem?_getD, List.getElem?_eq_getElem hidx2]
        simpa using hxe
      have hpad := hpads (L + idx) (by omega) (by omega)
      rw [hrest] at hpad
      have hshift : (cfg.bosId :: rest).getD (L + idx) 0 = rest.getD (L - 1 + idx) 0 := by
        have he : L + idx = (L - 1 + idx) + 1 := by omega
        rw [he]
        rfl
      rw [hshift, hgd] at hpad
      exact hpad
    · have he : L - 1 = (L - 2) + 1 := by omega
      have heos2 : rest.getD (L - 2) 0 = cfg.eosId := by
        rw [hrest, he] at heos
        exact heos
      have hsplit : rest = rest.take (L - 2) ++ rest.getD (L - 2) 0 :: rest.drop (L - 2 + 1) := by
        conv_lhs => rw [← List.take_append_drop (L - 2) rest]
        congr 1
        rw [List.drop_eq_getElem_cons hL2r]
        congr 1
        rw [List.getD_eq_getElem?_getD, List.getElem?_eq_getElem hL2r]
        rfl
      rw [hrest, hpredict, he, ← heos2]
      exact congrArg _ hsplit
  · with_unfolding_all rfl



theorem claim_C4_counterexample :
    beamSearchPredicts cfgC4b oracleC4b drawNone stochF [] = .ok [3, 4] ∧
    (runStateOf cfgC4b oracleC4b drawNone stochF []).prevs 0 = [1, 3, 4, 3] ∧
    (runStateOf cfgC4b oracleC4b drawNone stochF []).lens 0 = 4 ∧
    (runStateOf cfgC4b oracleC4b drawNone stochF []).isEnd 0 = false ∧
    bestBeam cfgC4b (runStateOf cfgC4b oracleC4b drawNone stochF []) = 0 ∧
    cfgC4b.paddingIdx ≠ 3 ∧ cfgC4b.eosId ≠ 3 := by
  refine ⟨by with_unfolding_all rfl, by decide, by decide, by decide, by decide, by decide,
    by decide⟩

theorem claim_C4_witness :
    ∃ pads : List ℕ, (∀ x ∈ pads, x = cfgC4.paddingIdx) ∧
      (runStateOf cfgC4 oracleC4 drawNone stochF []).prevs
          (bestBeam cfgC4 (runStateOf cfgC4 oracleC4 drawNone stochF [])) =
        cfgC4.bosId :: (predictOf cfgC4 (runStateOf cfgC4 oracleC4 drawNone stochF []) ++
          cfgC4.eosId :: pads) :=
  (claim_C4_extraction cfgC4 oracleC4 drawNone stochF []
    (runStateOf cfgC4 oracleC4 drawNone stochF []) (by rfl) (by decide) (by decide)
    (by decide)).1

end TransformerBeam
